import Mathlib

/-!
Verification of the extensible XMPP stanza decoder/encoder (`src/message.go`).

The embedding works at the token level: the byte-stream tokenizer is an
external collaborator (spec section 6), so `xml.Decoder.Token` is modelled as
popping the head of a `List Token`, end of stream being the empty list, and
`Message.XMPPFormat` (which marshals to a string) is modelled as the token
sequence that the tokenizer reports when re-reading the marshalled bytes.

`Message.UnmarshalXML` is translated clause by clause from the Go source:
the attribute loop (separate equality tests on the attribute local name, in
list order), then the token loop with its registry dispatch
(`msgTypeRegistry[space][localName]`), the `body`/`thread`/`subject`/`error`
switch, the silent fall-through for anything else, and the
`tt == start.End()` termination test.

`PacketAttrs` and `Err` are declared outside `src/` (only their use sites
appear here); they are modelled from the spec where noted.
-/

/-- An XML name, as reported by the tokenizer: `xml.Name` with fields
`Space` (resolved namespace) and `Local`. -/
structure XmlName where
  Space : String
  Local : String
deriving DecidableEq, Repr

/-- An attribute on a start tag: `xml.Attr` with fields `Name` and `Value`. -/
structure Attr where
  Name : XmlName
  Value : String
deriving DecidableEq, Repr

/-- One token of the stream: `xml.StartElement`, `xml.EndElement` or
`xml.CharData` as produced by `xml.Decoder.Token`. -/
inductive Token where
  | startElement (name : XmlName) (attr : List Attr) : Token
  | endElement (name : XmlName) : Token
  | charData (s : String) : Token
deriving DecidableEq, Repr

/-- XEP-0184 namespace constant from `src/message.go`. -/
def NSSpaceXEP0184Receipt : String := "urn:xmpp:receipts"

/-- XEP-0333 namespace constant from `src/message.go`. -/
def NSSpaceXEP0333ChatMarkers : String := "urn:xmpp:chat-markers:0"

/-- The `reflect.Type` values stored in `msgTypeRegistry`, as a closed set of
tags: exactly the six extension struct types registered in `init()`. -/
inductive ExtensionType where
  | receiptRequest
  | receiptReceived
  | chatMarkerMarkable
  | chatMarkerReceived
  | chatMarkerDisplayed
  | chatMarkerAcknowledged
deriving DecidableEq, Repr

/-- The process-wide registry `msgTypeRegistry`, after `init()` has run:
`map[string]map[string]reflect.Type` lookup
`msgTypeRegistry[space][localName]`, a missing key at either level giving
`nil` (here `none`). -/
def msgTypeRegistry (space localName : String) : Option ExtensionType :=
  if space = NSSpaceXEP0184Receipt then
    if localName = "request" then some ExtensionType.receiptRequest
    else if localName = "received" then some ExtensionType.receiptReceived
    else none
  else if space = NSSpaceXEP0333ChatMarkers then
    if localName = "markable" then some ExtensionType.chatMarkerMarkable
    else if localName = "received" then some ExtensionType.chatMarkerReceived
    else if localName = "displayed" then some ExtensionType.chatMarkerDisplayed
    else if localName = "acknowledged" then some ExtensionType.chatMarkerAcknowledged
    else none
  else none

/-- A message extension instance (`MsgExtension` interface values): one
constructor per registered extension struct type, each carrying the fields
of the Go struct (its `XMLName` and, where declared with `xml:"id,attr"`,
its `Id`). -/
inductive MsgExtension where
  | receiptRequest (xmlName : XmlName) : MsgExtension
  | receiptReceived (xmlName : XmlName) (id : String) : MsgExtension
  | chatMarkerMarkable (xmlName : XmlName) : MsgExtension
  | chatMarkerReceived (xmlName : XmlName) (id : String) : MsgExtension
  | chatMarkerDisplayed (xmlName : XmlName) (id : String) : MsgExtension
  | chatMarkerAcknowledged (xmlName : XmlName) (id : String) : MsgExtension
deriving DecidableEq, Repr

/-- The `reflect.Type` tag of an extension instance. -/
def extTy : MsgExtension → ExtensionType
  | MsgExtension.receiptRequest _ => ExtensionType.receiptRequest
  | MsgExtension.receiptReceived _ _ => ExtensionType.receiptReceived
  | MsgExtension.chatMarkerMarkable _ => ExtensionType.chatMarkerMarkable
  | MsgExtension.chatMarkerReceived _ _ => ExtensionType.chatMarkerReceived
  | MsgExtension.chatMarkerDisplayed _ _ => ExtensionType.chatMarkerDisplayed
  | MsgExtension.chatMarkerAcknowledged _ _ => ExtensionType.chatMarkerAcknowledged

/-- The stored `XMLName` field of an extension instance. -/
def extXMLName : MsgExtension → XmlName
  | MsgExtension.receiptRequest n => n
  | MsgExtension.receiptReceived n _ => n
  | MsgExtension.chatMarkerMarkable n => n
  | MsgExtension.chatMarkerReceived n _ => n
  | MsgExtension.chatMarkerDisplayed n _ => n
  | MsgExtension.chatMarkerAcknowledged n _ => n

/-- The `(namespace, localName)` pair under which each extension type is
registered in `init()`, which is also the name in its `xml:"..."` tag. -/
def registeredName : ExtensionType → XmlName
  | ExtensionType.receiptRequest => ⟨NSSpaceXEP0184Receipt, "request"⟩
  | ExtensionType.receiptReceived => ⟨NSSpaceXEP0184Receipt, "received"⟩
  | ExtensionType.chatMarkerMarkable => ⟨NSSpaceXEP0333ChatMarkers, "markable"⟩
  | ExtensionType.chatMarkerReceived => ⟨NSSpaceXEP0333ChatMarkers, "received"⟩
  | ExtensionType.chatMarkerDisplayed => ⟨NSSpaceXEP0333ChatMarkers, "displayed"⟩
  | ExtensionType.chatMarkerAcknowledged => ⟨NSSpaceXEP0333ChatMarkers, "acknowledged"⟩

/-- An extension instance whose stored `XMLName` is a pair registered in the
registry, mapping to its own type tag: the decoder only ever appends such
instances. -/
def extRegistered (e : MsgExtension) : Prop :=
  msgTypeRegistry (extXMLName e).Space (extXMLName e).Local = some (extTy e)

/-- An extension instance whose stored `XMLName` equals the registered pair
of its type (the state in which the decoder materialises instances). -/
def extWellNamed (e : MsgExtension) : Prop :=
  extXMLName e = registeredName (extTy e)

instance (e : MsgExtension) : Decidable (extRegistered e) := by
  unfold extRegistered; infer_instance

instance (e : MsgExtension) : Decidable (extWellNamed e) := by
  unfold extWellNamed; infer_instance

/-- Attribute lookup as performed by `encoding/xml` unmarshal for a field
tagged `xml:"id,attr"`: the tag carries no namespace, so any attribute whose
local name matches is assigned, attributes being processed in list order
(the last match wins); absent, the field keeps its zero value `""`. -/
def lastAttrLocal (localName : String) (attrs : List Attr) : String :=
  attrs.foldl (fun acc a => if a.Name.Local = localName then a.Value else acc) ""

/-- The instance built by `reflect.New` plus `d.DecodeElement(elt, tt)` for a
registered extension type: `encoding/xml` sets the struct's `XMLName` field
to the element name and fills fields tagged `xml:"id,attr"` from the
attribute list; these six structs have no element-mapped fields, so the rest
of the subtree is consumed and discarded. -/
def mkExt (ty : ExtensionType) (n : XmlName) (attrs : List Attr) : MsgExtension :=
  match ty with
  | ExtensionType.receiptRequest => MsgExtension.receiptRequest n
  | ExtensionType.receiptReceived => MsgExtension.receiptReceived n (lastAttrLocal "id" attrs)
  | ExtensionType.chatMarkerMarkable => MsgExtension.chatMarkerMarkable n
  | ExtensionType.chatMarkerReceived => MsgExtension.chatMarkerReceived n (lastAttrLocal "id" attrs)
  | ExtensionType.chatMarkerDisplayed => MsgExtension.chatMarkerDisplayed n (lastAttrLocal "id" attrs)
  | ExtensionType.chatMarkerAcknowledged => MsgExtension.chatMarkerAcknowledged n (lastAttrLocal "id" attrs)

/-- Modelled from the spec: the `Err` payload type of `Message.Error` is
declared outside `src/` and the spec treats it as an "optional structured
payload, opaque to this core", so it is modelled as an opaque payload with
symmetric element encode/decode (one character-data body under the `error`
element). -/
structure Err where
  text : String
deriving DecidableEq, Repr

/-- XEP-0066 out-of-band data payload, struct `MsgXOOB` with tag
`xml:"jabber:x:oob x"`, `URL` mapped to element `url` and `Desc` to element
`desc,omitempty`. -/
structure MsgXOOB where
  XMLName : XmlName
  URL : String
  Desc : String
deriving DecidableEq, Repr

/-- The `Message` struct. `PacketAttrs` is embedded in the Go struct and
declared outside `src/`; modelled from the spec ("core attributes `id, from,
to, type, lang`, all optional strings") as five flattened string fields, in
the order the decoder reads them. The Go field `Type` is spelled `Typ` here
because `Type` is reserved in Lean. -/
structure Message where
  XMLName : XmlName
  Id : String
  From : String
  To : String
  Typ : String
  Lang : String
  Subject : String
  Body : String
  Thread : String
  Error : Err
  Extensions : List MsgExtension
  X : Option MsgXOOB
deriving DecidableEq, Repr

/-- The zero `Message` value, `var packet Message` in `messageDecoder.decode`. -/
def emptyMessage : Message :=
  ⟨⟨"", ""⟩, "", "", "", "", "", "", "", "", ⟨""⟩, [], none⟩

/-- One iteration of the attribute loop of `Message.UnmarshalXML`: five
independent equality tests on the attribute's local name, each assigning the
matching core field. -/
def applyAttr (msg : Message) (attr : Attr) : Message :=
  let msg := if attr.Name.Local = "id" then { msg with Id := attr.Value } else msg
  let msg := if attr.Name.Local = "type" then { msg with Typ := attr.Value } else msg
  let msg := if attr.Name.Local = "to" then { msg with To := attr.Value } else msg
  let msg := if attr.Name.Local = "from" then { msg with From := attr.Value } else msg
  let msg := if attr.Name.Local = "lang" then { msg with Lang := attr.Value } else msg
  msg

/-- The attribute loop of `Message.UnmarshalXML`: `for _, attr := range
start.Attr`, in list order. -/
def decodeAttrs (msg : Message) (attrs : List Attr) : Message :=
  attrs.foldl applyAttr msg

/-- Token consumption of `xml.Decoder.Skip` (also performed by
`DecodeElement` past the fields it maps): starting just after a start tag,
read until the end tag balancing it, trusting the tokenizer's start/end
pairing; `none` on end of stream. Returns the tokens after the balancing
end tag. -/
def skipToEnd : List Token → Nat → Option (List Token)
  | [], _ => none
  | Token.startElement _ _ :: rest, depth => skipToEnd rest (depth + 1)
  | Token.endElement _ :: rest, depth =>
    match depth with
    | 0 => some rest
    | d + 1 => skipToEnd rest d
  | Token.charData _ :: rest, depth => skipToEnd rest depth

/-- Token consumption of `d.DecodeElement(target, tt)` for a `string`
target: character data directly inside the element is concatenated, nested
subtrees are skipped (`d.Skip`), the element's end tag terminates; `none` on
end of stream. -/
def decodeElementString (acc : String) (depth : Nat) : List Token → Option (String × List Token)
  | [] => none
  | Token.charData s :: rest =>
    decodeElementString (if depth = 0 then acc ++ s else acc) depth rest
  | Token.startElement _ _ :: rest => decodeElementString acc (depth + 1) rest
  | Token.endElement _ :: rest =>
    match depth with
    | 0 => some (acc, rest)
    | d + 1 => decodeElementString acc d rest

theorem skipToEnd_length :
    ∀ (ts : List Token) (d : Nat) (ts2 : List Token),
      skipToEnd ts d = some ts2 → ts2.length < ts.length := by
  intro ts
  induction ts with
  | nil => intro d ts2 h; simp [skipToEnd] at h
  | cons t rest ih =>
    intro d ts2 h
    cases t with
    | startElement n a =>
      have := ih (d + 1) ts2 h
      simpa [Nat.lt_succ_iff] using Nat.le_of_lt this
    | endElement n =>
      cases d with
      | zero =>
        simp [skipToEnd] at h
        simp [← h, List.length_cons, Nat.lt_succ_iff]
      | succ d' =>
        have := ih d' ts2 h
        simpa [Nat.lt_succ_iff] using Nat.le_of_lt this
    | charData s =>
      have := ih d ts2 h
      simpa [Nat.lt_succ_iff] using Nat.le_of_lt this

theorem decodeElementString_length :
    ∀ (ts : List Token) (acc : String) (d : Nat) (v : String) (ts2 : List Token),
      decodeElementString acc d ts = some (v, ts2) → ts2.length < ts.length := by
  intro ts
  induction ts with
  | nil => intro acc d v ts2 h; simp [decodeElementString] at h
  | cons t rest ih =>
    intro acc d v ts2 h
    cases t with
    | startElement n a =>
      have := ih acc (d + 1) v ts2 h
      simpa [Nat.lt_succ_iff] using Nat.le_of_lt this
    | endElement n =>
      cases d with
      | zero =>
        simp [decodeElementString] at h
        simp [← h.2, List.length_cons, Nat.lt_succ_iff]
      | succ d' =>
        have := ih acc d' v ts2 h
        simpa [Nat.lt_succ_iff] using Nat.le_of_lt this
    | charData s =>
      have := ih (if d = 0 then acc ++ s else acc) d v ts2 h
      simpa [Nat.lt_succ_iff] using Nat.le_of_lt this

/-- The token loop of `Message.UnmarshalXML` (the `for` loop at
`src/message.go:79`): on a start element, dispatch through
`msgTypeRegistry`; registered, decode the subtree into a fresh instance and
append it to `Extensions`; otherwise switch on the local name for
`body`/`thread`/`subject`/`error`; any other child's start tag falls through
with nothing consumed. On an end element, return when its name equals the
stanza's start name (`tt == start.End()`), else keep looping. Character
data is ignored. End of stream is a decode failure (`none`). -/
def unmarshalLoop (start : XmlName) (msg : Message) (ts : List Token) :
    Option (Message × List Token) :=
  match ts with
  | [] => none
  | Token.charData _ :: rest => unmarshalLoop start msg rest
  | Token.endElement n :: rest =>
    if n = start then some (msg, rest) else unmarshalLoop start msg rest
  | Token.startElement n attrs :: rest =>
    match msgTypeRegistry n.Space n.Local with
    | some ty =>
      match hsk : skipToEnd rest 0 with
      | none => none
      | some rest2 =>
        unmarshalLoop start { msg with Extensions := msg.Extensions ++ [mkExt ty n attrs] } rest2
    | none =>
      if n.Local = "body" then
        match hd : decodeElementString "" 0 rest with
        | none => none
        | some (v, rest2) => unmarshalLoop start { msg with Body := v } rest2
      else if n.Local = "thread" then
        match hd : decodeElementString "" 0 rest with
        | none => none
        | some (v, rest2) => unmarshalLoop start { msg with Thread := v } rest2
      else if n.Local = "subject" then
        match hd : decodeElementString "" 0 rest with
        | none => none
        | some (v, rest2) => unmarshalLoop start { msg with Subject := v } rest2
      else if n.Local = "error" then
        match hd : decodeElementString "" 0 rest with
        | none => none
        | some (v, rest2) => unmarshalLoop start { msg with Error := ⟨v⟩ } rest2
      else unmarshalLoop start msg rest
termination_by ts.length
decreasing_by
  · simp [List.length_cons]; try omega
  · simp [List.length_cons]; try omega
  · have := skipToEnd_length rest 0 rest2 hsk
    simp [List.length_cons]; omega
  · have := decodeElementString_length rest "" 0 v rest2 hd
    simp [List.length_cons]; omega
  · have := decodeElementString_length rest "" 0 v rest2 hd
    simp [List.length_cons]; omega
  · have := decodeElementString_length rest "" 0 v rest2 hd
    simp [List.length_cons]; omega
  · have := decodeElementString_length rest "" 0 v rest2 hd
    simp [List.length_cons]; omega
  · simp [List.length_cons]; try omega

/-- `Message.UnmarshalXML`: given the stanza's start tag (name and
attributes) and the tokens after it, set `XMLName`, run the attribute loop
on the zero message, then the token loop. Returns the populated message and
the unconsumed tokens, or `none` for a decode failure. -/
def Message.UnmarshalXML (start : XmlName) (attrs : List Attr) (ts : List Token) :
    Option (Message × List Token) :=
  unmarshalLoop start (decodeAttrs { emptyMessage with XMLName := start } attrs) ts

/-- `messageDecoder.decode`: read the stanza's start element off the stream
and run `Message.UnmarshalXML` (via `p.DecodeElement`, which dispatches to
the custom unmarshaller). -/
def messageDecoder.decode : List Token → Option (Message × List Token)
  | Token.startElement n attrs :: rest => Message.UnmarshalXML n attrs rest
  | _ => none

/-! Step lemmas: one unfolding of the token loop per token shape. -/

theorem unmarshalLoop_nil (s : XmlName) (msg : Message) :
    unmarshalLoop s msg [] = none := by
  rw [unmarshalLoop]

theorem unmarshalLoop_charData (s : XmlName) (msg : Message) (c : String) (ts : List Token) :
    unmarshalLoop s msg (Token.charData c :: ts) = unmarshalLoop s msg ts := by
  rw [unmarshalLoop]

theorem unmarshalLoop_end_eq (s : XmlName) (msg : Message) (ts : List Token) :
    unmarshalLoop s msg (Token.endElement s :: ts) = some (msg, ts) := by
  rw [unmarshalLoop]; simp

theorem unmarshalLoop_end_ne (s n : XmlName) (msg : Message) (ts : List Token)
    (h : n ≠ s) :
    unmarshalLoop s msg (Token.endElement n :: ts) = unmarshalLoop s msg ts := by
  rw [unmarshalLoop]; simp [h]

theorem unmarshalLoop_start_reg_none (s n : XmlName) (msg : Message) (attrs : List Attr)
    (ts : List Token) (ty : ExtensionType)
    (hreg : msgTypeRegistry n.Space n.Local = some ty)
    (hsk : skipToEnd ts 0 = none) :
    unmarshalLoop s msg (Token.startElement n attrs :: ts) = none := by
  rw [unmarshalLoop]
  simp only [hreg]
  split <;> simp_all

theorem unmarshalLoop_start_reg_some (s n : XmlName) (msg : Message) (attrs : List Attr)
    (ts rest2 : List Token) (ty : ExtensionType)
    (hreg : msgTypeRegistry n.Space n.Local = some ty)
    (hsk : skipToEnd ts 0 = some rest2) :
    unmarshalLoop s msg (Token.startElement n attrs :: ts) =
      unmarshalLoop s { msg with Extensions := msg.Extensions ++ [mkExt ty n attrs] } rest2 := by
  rw [unmarshalLoop]
  simp only [hreg]
  split <;> simp_all

theorem unmarshalLoop_start_body_some (s n : XmlName) (msg : Message) (attrs : List Attr)
    (ts rest2 : List Token) (v : String)
    (hreg : msgTypeRegistry n.Space n.Local = none) (hl : n.Local = "body")
    (hd : decodeElementString "" 0 ts = some (v, rest2)) :
    unmarshalLoop s msg (Token.startElement n attrs :: ts) =
      unmarshalLoop s { msg with Body := v } rest2 := by
  rw [unmarshalLoop]
  rw [hl] at hreg
  simp only [hl, hreg]
  repeat' (first | rfl | (split <;> simp_all))

theorem unmarshalLoop_start_thread_some (s n : XmlName) (msg : Message) (attrs : List Attr)
    (ts rest2 : List Token) (v : String)
    (hreg : msgTypeRegistry n.Space n.Local = none) (hl : n.Local = "thread")
    (hd : decodeElementString "" 0 ts = some (v, rest2)) :
    unmarshalLoop s msg (Token.startElement n attrs :: ts) =
      unmarshalLoop s { msg with Thread := v } rest2 := by
  rw [unmarshalLoop]
  rw [hl] at hreg
  simp only [hl, hreg]
  repeat' (first | rfl | (split <;> simp_all))

theorem unmarshalLoop_start_subject_some (s n : XmlName) (msg : Message) (attrs : List Attr)
    (ts rest2 : List Token) (v : String)
    (hreg : msgTypeRegistry n.Space n.Local = none) (hl : n.Local = "subject")
    (hd : decodeElementString "" 0 ts = some (v, rest2)) :
    unmarshalLoop s msg (Token.startElement n attrs :: ts) =
      unmarshalLoop s { msg with Subject := v } rest2 := by
  rw [unmarshalLoop]
  rw [hl] at hreg
  simp only [hl, hreg]
  repeat' (first | rfl | (split <;> simp_all))

theorem unmarshalLoop_start_error_some (s n : XmlName) (msg : Message) (attrs : List Attr)
    (ts rest2 : List Token) (v : String)
    (hreg : msgTypeRegistry n.Space n.Local = none) (hl : n.Local = "error")
    (hd : decodeElementString "" 0 ts = some (v, rest2)) :
    unmarshalLoop s msg (Token.startElement n attrs :: ts) =
      unmarshalLoop s { msg with Error := ⟨v⟩ } rest2 := by
  rw [unmarshalLoop]
  rw [hl] at hreg
  simp only [hl, hreg]
  repeat' (first | rfl | (split <;> simp_all))

theorem unmarshalLoop_start_core_none (s n : XmlName) (msg : Message) (attrs : List Attr)
    (ts : List Token)
    (hreg : msgTypeRegistry n.Space n.Local = none)
    (hl : n.Local = "body" ∨ n.Local = "thread" ∨ n.Local = "subject" ∨ n.Local = "error")
    (hd : decodeElementString "" 0 ts = none) :
    unmarshalLoop s msg (Token.startElement n attrs :: ts) = none := by
  rw [unmarshalLoop]
  rcases hl with hl | hl | hl | hl <;> rw [hl] at hreg <;> simp only [hl, hreg] <;>
    repeat' (first | rfl | (split <;> simp_all))

theorem unmarshalLoop_start_other (s n : XmlName) (msg : Message) (attrs : List Attr)
    (ts : List Token)
    (hreg : msgTypeRegistry n.Space n.Local = none)
    (hb : n.Local ≠ "body") (ht : n.Local ≠ "thread")
    (hs : n.Local ≠ "subject") (he : n.Local ≠ "error") :
    unmarshalLoop s msg (Token.startElement n attrs :: ts) = unmarshalLoop s msg ts := by
  rw [unmarshalLoop]
  simp only [hreg, hb, ht, hs, he, if_false]

/-! Well-formed subtrees: the shape of token streams produced by a correctly
pairing tokenizer (spec section 6), used to state stream-level properties. -/

mutual
/-- A balanced element or text node, as a tree. -/
inductive Subtree where
  | node (name : XmlName) (attrs : List Attr) (children : Forest) : Subtree
  | text (s : String) : Subtree
/-- A sequence of balanced subtrees. -/
inductive Forest where
  | nil : Forest
  | cons (t : Subtree) (f : Forest) : Forest
end

mutual
/-- The token stream of a balanced subtree. -/
def Subtree.tokens : Subtree → List Token
  | Subtree.node n a cs => Token.startElement n a :: (Forest.tokens cs ++ [Token.endElement n])
  | Subtree.text s => [Token.charData s]
/-- The token stream of a sequence of balanced subtrees. -/
def Forest.tokens : Forest → List Token
  | Forest.nil => []
  | Forest.cons t f => Subtree.tokens t ++ Forest.tokens f
end

/-- The concatenation of the top-level character data of a forest, which is
what `DecodeElement` into a `string` target collects. -/
def Forest.flatText : Forest → String
  | Forest.nil => ""
  | Forest.cons (Subtree.text s) f => s ++ Forest.flatText f
  | Forest.cons (Subtree.node _ _ _) f => Forest.flatText f

mutual
theorem skipToEnd_subtree (t : Subtree) (ts : List Token) (d : Nat) :
    skipToEnd (Subtree.tokens t ++ ts) d = skipToEnd ts d := by
  cases t with
  | text s => simp [Subtree.tokens, skipToEnd]
  | node n a cs =>
    have h := skipToEnd_forest cs (Token.endElement n :: ts) (d + 1)
    simp only [Subtree.tokens, List.cons_append, List.append_assoc, List.singleton_append,
      skipToEnd, List.append_eq, List.nil_append]
    rw [h]
    simp [skipToEnd]
theorem skipToEnd_forest (f : Forest) (ts : List Token) (d : Nat) :
    skipToEnd (Forest.tokens f ++ ts) d = skipToEnd ts d := by
  cases f with
  | nil => simp [Forest.tokens]
  | cons t f2 =>
    rw [Forest.tokens, List.append_assoc, skipToEnd_subtree t _ d, skipToEnd_forest f2 ts d]
end

mutual
theorem decodeElementString_skip_subtree (t : Subtree) (acc : String) (d : Nat) (ts : List Token) :
    decodeElementString acc (d + 1) (Subtree.tokens t ++ ts) = decodeElementString acc (d + 1) ts := by
  cases t with
  | text s => simp [Subtree.tokens, decodeElementString]
  | node n a cs =>
    have h := decodeElementString_skip_forest cs acc (d + 1) (Token.endElement n :: ts)
    simp only [Subtree.tokens, List.cons_append, List.append_assoc, List.singleton_append,
      decodeElementString, List.append_eq, List.nil_append]
    rw [h]
    simp [decodeElementString]
theorem decodeElementString_skip_forest (f : Forest) (acc : String) (d : Nat) (ts : List Token) :
    decodeElementString acc (d + 1) (Forest.tokens f ++ ts) = decodeElementString acc (d + 1) ts := by
  cases f with
  | nil => simp [Forest.tokens]
  | cons t f2 =>
    rw [Forest.tokens, List.append_assoc, decodeElementString_skip_subtree t acc d _,
      decodeElementString_skip_forest f2 acc d ts]
end

theorem decodeElementString_forest (f : Forest) :
    ∀ (acc : String) (n : XmlName) (ts : List Token),
      decodeElementString acc 0 (Forest.tokens f ++ Token.endElement n :: ts)
        = some (acc ++ Forest.flatText f, ts) := by
  cases f with
  | nil =>
    intro acc n ts
    simp [Forest.tokens, Forest.flatText, decodeElementString]
  | cons t f2 =>
    intro acc n ts
    cases t with
    | text s =>
      simp only [Forest.tokens, Subtree.tokens, List.cons_append, List.append_assoc,
        List.nil_append, decodeElementString, Forest.flatText, List.append_eq, if_true]
      rw [decodeElementString_forest f2 (acc ++ s) n ts]
      simp [String.append_assoc]
    | node n2 a cs =>
      simp only [Forest.tokens, Subtree.tokens, List.cons_append, List.append_assoc,
        List.singleton_append, decodeElementString, Forest.flatText, List.append_eq]
      rw [decodeElementString_skip_forest cs acc 0 _]
      simp only [decodeElementString, List.nil_append]
      rw [decodeElementString_forest f2 acc n ts]

/-- Token streams on which the token loop is guaranteed to terminate with a
result: the exact shapes reachable by the loop when the remainder of the
stream is a sequence of balanced subtrees followed by an end tag bearing the
stanza's name. -/
inductive EndsWell (s : XmlName) : List Token → Prop where
  | done (rest : List Token) : EndsWell s (Token.endElement s :: rest)
  | chr (c : String) (ts : List Token) : EndsWell s ts → EndsWell s (Token.charData c :: ts)
  | endo (n : XmlName) (ts : List Token) : EndsWell s ts → EndsWell s (Token.endElement n :: ts)
  | node (n : XmlName) (a : List Attr) (cs : Forest) (ts : List Token) :
      EndsWell s ts →
      EndsWell s (Token.startElement n a :: (Forest.tokens cs ++ Token.endElement n :: ts))

mutual
theorem EndsWell.prepend_subtree (t : Subtree) (s : XmlName) (ts : List Token)
    (h : EndsWell s ts) : EndsWell s (Subtree.tokens t ++ ts) := by
  cases t with
  | text c => simpa [Subtree.tokens] using EndsWell.chr c ts h
  | node n a cs =>
    simpa [Subtree.tokens, List.append_assoc] using EndsWell.node n a cs ts h
theorem EndsWell.prepend_forest (f : Forest) (s : XmlName) (ts : List Token)
    (h : EndsWell s ts) : EndsWell s (Forest.tokens f ++ ts) := by
  cases f with
  | nil => simpa [Forest.tokens] using h
  | cons t f2 =>
    have h2 := EndsWell.prepend_forest f2 s ts h
    simpa [Forest.tokens, List.append_assoc] using EndsWell.prepend_subtree t s _ h2
end

/-- On any stream whose remainder is well formed and closed by an end tag of
the stanza's name, the token loop returns a result (it does not run off the
end of the stream). -/
theorem unmarshalLoop_total :
    ∀ (N : Nat) (ts : List Token), ts.length ≤ N → ∀ (s : XmlName) (msg : Message),
      EndsWell s ts → ∃ p, unmarshalLoop s msg ts = some p := by
  intro N
  induction N with
  | zero =>
    intro ts hl s msg hE
    cases hE <;> simp at hl
  | succ N ih =>
    intro ts hl s msg hE
    cases hE with
    | done rest => exact ⟨(msg, rest), unmarshalLoop_end_eq s msg rest⟩
    | chr c ts2 h =>
      rw [unmarshalLoop_charData]
      exact ih ts2 (by simp at hl; omega) s msg h
    | endo n ts2 h =>
      by_cases hn : n = s
      · exact ⟨(msg, ts2), by rw [hn]; exact unmarshalLoop_end_eq s msg ts2⟩
      · rw [unmarshalLoop_end_ne s n msg ts2 hn]
        exact ih ts2 (by simp at hl; omega) s msg h
    | node n a cs ts2 h =>
      have hlen : ts2.length ≤ N := by
        simp [List.length_append] at hl; omega
      cases hreg : msgTypeRegistry n.Space n.Local with
      | some ty =>
        have hsk : skipToEnd (Forest.tokens cs ++ Token.endElement n :: ts2) 0 = some ts2 := by
          rw [skipToEnd_forest]; simp [skipToEnd]
        rw [unmarshalLoop_start_reg_some s n msg a _ ts2 ty hreg hsk]
        exact ih ts2 hlen s _ h
      | none =>
        have hd := decodeElementString_forest cs "" n ts2
        by_cases hb : n.Local = "body"
        · rw [unmarshalLoop_start_body_some s n msg a _ ts2 _ hreg hb hd]
          exact ih ts2 hlen s _ h
        · by_cases ht : n.Local = "thread"
          · rw [unmarshalLoop_start_thread_some s n msg a _ ts2 _ hreg ht hd]
            exact ih ts2 hlen s _ h
          · by_cases hsj : n.Local = "subject"
            · rw [unmarshalLoop_start_subject_some s n msg a _ ts2 _ hreg hsj hd]
              exact ih ts2 hlen s _ h
            · by_cases herr : n.Local = "error"
              · rw [unmarshalLoop_start_error_some s n msg a _ ts2 _ hreg herr hd]
                exact ih ts2 hlen s _ h
              · rw [unmarshalLoop_start_other s n msg a _ hreg hb ht hsj herr]
                refine ih (Forest.tokens cs ++ Token.endElement n :: ts2) ?_ s msg ?_
                · simp [List.length_append] at hl ⊢; omega
                · exact EndsWell.prepend_forest cs s _ (EndsWell.endo n ts2 h)

theorem mkExt_registered (ty : ExtensionType) (n : XmlName) (attrs : List Attr)
    (hreg : msgTypeRegistry n.Space n.Local = some ty) :
    extRegistered (mkExt ty n attrs) := by
  cases ty <;> simp [mkExt, extRegistered, extXMLName, extTy, hreg]

/-- Whatever stream the token loop consumes, every extension instance of the
resulting message was either already present or was materialised through a
successful registry lookup on its own name. -/
theorem unmarshalLoop_extensions_registered :
    ∀ (N : Nat) (ts : List Token), ts.length ≤ N →
      ∀ (s : XmlName) (msg m : Message) (r : List Token),
        unmarshalLoop s msg ts = some (m, r) →
        ∀ e ∈ m.Extensions, e ∈ msg.Extensions ∨ extRegistered e := by
  intro N
  induction N with
  | zero =>
    intro ts hl s msg m r hsome
    have : ts = [] := List.length_eq_zero.mp (Nat.le_zero.mp hl)
    subst this
    rw [unmarshalLoop_nil] at hsome
    cases hsome
  | succ N ih =>
    intro ts hl s msg m r hsome e he
    cases ts with
    | nil =>
      rw [unmarshalLoop_nil] at hsome
      cases hsome
    | cons t rest =>
      cases t with
      | charData c =>
        rw [unmarshalLoop_charData] at hsome
        exact ih rest (by simp at hl; omega) s msg m r hsome e he
      | endElement n =>
        by_cases hn : n = s
        · subst hn
          rw [unmarshalLoop_end_eq] at hsome
          have hm : msg = m := by
            have := Option.some.inj hsome
            exact congrArg Prod.fst this
          subst hm
          exact Or.inl he
        · rw [unmarshalLoop_end_ne s n msg rest hn] at hsome
          exact ih rest (by simp at hl; omega) s msg m r hsome e he
      | startElement n attrs =>
        cases hreg : msgTypeRegistry n.Space n.Local with
        | some ty =>
          cases hsk : skipToEnd rest 0 with
          | none =>
            rw [unmarshalLoop_start_reg_none s n msg attrs rest ty hreg hsk] at hsome
            cases hsome
          | some rest2 =>
            rw [unmarshalLoop_start_reg_some s n msg attrs rest rest2 ty hreg hsk] at hsome
            have hlen : rest2.length ≤ N := by
              have := skipToEnd_length rest 0 rest2 hsk
              simp at hl; omega
            have hmem := ih rest2 hlen s _ m r hsome e he
            rcases hmem with hmem | hregd
            · simp only [List.mem_append, List.mem_singleton] at hmem
              rcases hmem with hmem | hmk
              · exact Or.inl hmem
              · exact Or.inr (hmk ▸ mkExt_registered ty n attrs hreg)
            · exact Or.inr hregd
        | none =>
          have hcore :
              ∀ (msg2 : Message), msg2.Extensions = msg.Extensions →
                ∀ rest2, rest2.length ≤ N →
                  unmarshalLoop s msg2 rest2 = some (m, r) →
                  e ∈ msg.Extensions ∨ extRegistered e := by
            intro msg2 hext rest2 hlen2 hsome2
            have := ih rest2 hlen2 s msg2 m r hsome2 e he
            rwa [hext] at this
          by_cases hb : n.Local = "body"
          · cases hd : decodeElementString "" 0 rest with
            | none =>
              rw [unmarshalLoop_start_core_none s n msg attrs rest hreg (Or.inl hb) hd] at hsome
              cases hsome
            | some p =>
              obtain ⟨v, rest2⟩ := p
              rw [unmarshalLoop_start_body_some s n msg attrs rest rest2 v hreg hb hd] at hsome
              refine hcore { msg with Body := v } rfl rest2 ?_ hsome
              have := decodeElementString_length rest "" 0 v rest2 hd
              simp at hl; omega
          · by_cases ht : n.Local = "thread"
            · cases hd : decodeElementString "" 0 rest with
              | none =>
                rw [unmarshalLoop_start_core_none s n msg attrs rest hreg (Or.inr (Or.inl ht)) hd] at hsome
                cases hsome
              | some p =>
                obtain ⟨v, rest2⟩ := p
                rw [unmarshalLoop_start_thread_some s n msg attrs rest rest2 v hreg ht hd] at hsome
                refine hcore { msg with Thread := v } rfl rest2 ?_ hsome
                have := decodeElementString_length rest "" 0 v rest2 hd
                simp at hl; omega
            · by_cases hsj : n.Local = "subject"
              · cases hd : decodeElementString "" 0 rest with
                | none =>
                  rw [unmarshalLoop_start_core_none s n msg attrs rest hreg
                    (Or.inr (Or.inr (Or.inl hsj))) hd] at hsome
                  cases hsome
                | some p =>
                  obtain ⟨v, rest2⟩ := p
                  rw [unmarshalLoop_start_subject_some s n msg attrs rest rest2 v hreg hsj hd] at hsome
                  refine hcore { msg with Subject := v } rfl rest2 ?_ hsome
                  have := decodeElementString_length rest "" 0 v rest2 hd
                  simp at hl; omega
              · by_cases herr : n.Local = "error"
                · cases hd : decodeElementString "" 0 rest with
                  | none =>
                    rw [unmarshalLoop_start_core_none s n msg attrs rest hreg
                      (Or.inr (Or.inr (Or.inr herr))) hd] at hsome
                    cases hsome
                  | some p =>
                    obtain ⟨v, rest2⟩ := p
                    rw [unmarshalLoop_start_error_some s n msg attrs rest rest2 v hreg herr hd] at hsome
                    refine hcore { msg with Error := ⟨v⟩ } rfl rest2 ?_ hsome
                    have := decodeElementString_length rest "" 0 v rest2 hd
                    simp at hl; omega
                · rw [unmarshalLoop_start_other s n msg attrs rest hreg hb ht hsj herr] at hsome
                  exact ih rest (by simp at hl; omega) s msg m r hsome e he

/-! The encoder, `Message.XMPPFormat` = `xml.MarshalIndent(msg, "", "")`
(identical to `xml.Marshal`: with empty prefix and indent no whitespace is
written), expressed as the token stream the tokenizer reports when
re-reading the marshalled bytes. -/

/-- Modelled from the spec: the attribute tokens for the stanza start tag.
The `PacketAttrs` struct with the attribute tags is declared outside `src/`;
the spec says "emit the stanza start tag with all non-empty core
attributes". Unprefixed attributes carry no namespace. -/
def encodeAttrs (msg : Message) : List Attr :=
  (if msg.Id = "" then [] else [⟨⟨"", "id"⟩, msg.Id⟩])
    ++ (if msg.From = "" then [] else [⟨⟨"", "from"⟩, msg.From⟩])
    ++ (if msg.To = "" then [] else [⟨⟨"", "to"⟩, msg.To⟩])
    ++ (if msg.Typ = "" then [] else [⟨⟨"", "type"⟩, msg.Typ⟩])
    ++ (if msg.Lang = "" then [] else [⟨⟨"", "lang"⟩, msg.Lang⟩])

/-- Tokens of a string core child tagged `omitempty` (`subject`, `body`,
`thread`): omitted when empty, else one element holding one character-data
token. -/
def textTokens (localName : String) (v : String) : List Token :=
  if v = "" then []
  else [Token.startElement ⟨"", localName⟩ [], Token.charData v,
    Token.endElement ⟨"", localName⟩]

/-- Tokens of the `error` child. Go's `omitempty` never omits a struct-typed
field, so the element is always emitted even for a zero `Err`; its body is
the modelled opaque payload (symmetric with the decode side). -/
def errTokens (e : Err) : List Token :=
  Token.startElement ⟨"", "error"⟩ []
    :: ((if e.text = "" then [] else [Token.charData e.text])
      ++ [Token.endElement ⟨"", "error"⟩])

/-- Tokens of one marshalled extension instance. The element name comes from
the struct's `XMLName` tag (a tag name takes precedence over the stored
`XMLName` value), the namespace is written as an `xmlns` attribute which the
re-reading tokenizer also reports in the attribute list, and a field tagged
`xml:"id,attr"` (no omitempty) is always emitted. -/
def encodeExt : MsgExtension → List Token
  | MsgExtension.receiptRequest _ =>
    [Token.startElement ⟨NSSpaceXEP0184Receipt, "request"⟩
      [⟨⟨"", "xmlns"⟩, NSSpaceXEP0184Receipt⟩],
     Token.endElement ⟨NSSpaceXEP0184Receipt, "request"⟩]
  | MsgExtension.receiptReceived _ id =>
    [Token.startElement ⟨NSSpaceXEP0184Receipt, "received"⟩
      [⟨⟨"", "xmlns"⟩, NSSpaceXEP0184Receipt⟩, ⟨⟨"", "id"⟩, id⟩],
     Token.endElement ⟨NSSpaceXEP0184Receipt, "received"⟩]
  | MsgExtension.chatMarkerMarkable _ =>
    [Token.startElement ⟨NSSpaceXEP0333ChatMarkers, "markable"⟩
      [⟨⟨"", "xmlns"⟩, NSSpaceXEP0333ChatMarkers⟩],
     Token.endElement ⟨NSSpaceXEP0333ChatMarkers, "markable"⟩]
  | MsgExtension.chatMarkerReceived _ id =>
    [Token.startElement ⟨NSSpaceXEP0333ChatMarkers, "received"⟩
      [⟨⟨"", "xmlns"⟩, NSSpaceXEP0333ChatMarkers⟩, ⟨⟨"", "id"⟩, id⟩],
     Token.endElement ⟨NSSpaceXEP0333ChatMarkers, "received"⟩]
  | MsgExtension.chatMarkerDisplayed _ id =>
    [Token.startElement ⟨NSSpaceXEP0333ChatMarkers, "displayed"⟩
      [⟨⟨"", "xmlns"⟩, NSSpaceXEP0333ChatMarkers⟩, ⟨⟨"", "id"⟩, id⟩],
     Token.endElement ⟨NSSpaceXEP0333ChatMarkers, "displayed"⟩]
  | MsgExtension.chatMarkerAcknowledged _ id =>
    [Token.startElement ⟨NSSpaceXEP0333ChatMarkers, "acknowledged"⟩
      [⟨⟨"", "xmlns"⟩, NSSpaceXEP0333ChatMarkers⟩, ⟨⟨"", "id"⟩, id⟩],
     Token.endElement ⟨NSSpaceXEP0333ChatMarkers, "acknowledged"⟩]

/-- Tokens of the `Extensions` slice, in stored order. -/
def extsTokens : List MsgExtension → List Token
  | [] => []
  | e :: l => encodeExt e ++ extsTokens l

/-- Tokens of the out-of-band field `X`: omitted when `nil` (pointer with
omitempty); otherwise the `x` element in the `jabber:x:oob` namespace, whose
default-namespace declaration scopes over the re-read `url` and `desc`
children; `URL` (no omitempty) is always emitted, `Desc` only when
non-empty. -/
def xTokens : Option MsgXOOB → List Token
  | none => []
  | some x =>
    Token.startElement ⟨"jabber:x:oob", "x"⟩ [⟨⟨"", "xmlns"⟩, "jabber:x:oob"⟩]
      :: Token.startElement ⟨"jabber:x:oob", "url"⟩ []
      :: ((if x.URL = "" then [] else [Token.charData x.URL])
        ++ Token.endElement ⟨"jabber:x:oob", "url"⟩
        :: ((if x.Desc = "" then []
            else [Token.startElement ⟨"jabber:x:oob", "desc"⟩ [], Token.charData x.Desc,
              Token.endElement ⟨"jabber:x:oob", "desc"⟩])
          ++ [Token.endElement ⟨"jabber:x:oob", "x"⟩]))

/-- `Message.XMPPFormat`: the marshalled stanza, children in struct field
order (`Subject`, `Body`, `Thread`, `Error`, `Extensions`, `X`); the element
name is the `xml:"message"` tag on the `XMLName` field (a tag name takes
precedence over the stored value). -/
def Message.XMPPFormat (msg : Message) : List Token :=
  Token.startElement ⟨"", "message"⟩ (encodeAttrs msg)
    :: (textTokens "subject" msg.Subject ++ textTokens "body" msg.Body
      ++ textTokens "thread" msg.Thread ++ errTokens msg.Error
      ++ extsTokens msg.Extensions ++ xTokens msg.X
      ++ [Token.endElement ⟨"", "message"⟩])

/-! Chunk lemmas: how the token loop walks each marshalled child. -/

theorem unmarshalLoop_textTokens_subject (s : XmlName) (msg : Message) (v : String)
    (ts : List Token) (hv : v ≠ "") :
    unmarshalLoop s msg (textTokens "subject" v ++ ts)
      = unmarshalLoop s { msg with Subject := v } ts := by
  simp only [textTokens, if_neg hv, List.cons_append, List.nil_append]
  exact unmarshalLoop_start_subject_some s ⟨"", "subject"⟩ msg [] _ ts v (by decide) rfl rfl

theorem unmarshalLoop_textTokens_body (s : XmlName) (msg : Message) (v : String)
    (ts : List Token) (hv : v ≠ "") :
    unmarshalLoop s msg (textTokens "body" v ++ ts)
      = unmarshalLoop s { msg with Body := v } ts := by
  simp only [textTokens, if_neg hv, List.cons_append, List.nil_append]
  exact unmarshalLoop_start_body_some s ⟨"", "body"⟩ msg [] _ ts v (by decide) rfl rfl

theorem unmarshalLoop_textTokens_thread (s : XmlName) (msg : Message) (v : String)
    (ts : List Token) (hv : v ≠ "") :
    unmarshalLoop s msg (textTokens "thread" v ++ ts)
      = unmarshalLoop s { msg with Thread := v } ts := by
  simp only [textTokens, if_neg hv, List.cons_append, List.nil_append]
  exact unmarshalLoop_start_thread_some s ⟨"", "thread"⟩ msg [] _ ts v (by decide) rfl rfl

theorem unmarshalLoop_errTokens (s : XmlName) (msg : Message) (e : Err) (ts : List Token) :
    unmarshalLoop s msg (errTokens e ++ ts) = unmarshalLoop s { msg with Error := e } ts := by
  obtain ⟨t⟩ := e
  by_cases hv : t = ""
  · subst hv
    simp only [errTokens, List.cons_append, List.nil_append, if_pos rfl]
    exact unmarshalLoop_start_error_some s ⟨"", "error"⟩ msg [] _ ts "" (by decide) rfl rfl
  · simp only [errTokens, if_neg hv, List.cons_append, List.nil_append]
    exact unmarshalLoop_start_error_some s ⟨"", "error"⟩ msg [] _ ts t (by decide) rfl rfl

theorem unmarshalLoop_encodeExt (s : XmlName) (msg : Message) (e : MsgExtension)
    (ts : List Token) (hw : extWellNamed e) :
    unmarshalLoop s msg (encodeExt e ++ ts)
      = unmarshalLoop s { msg with Extensions := msg.Extensions ++ [e] } ts := by
  cases e with
  | receiptRequest n =>
    have hn : n = ⟨NSSpaceXEP0184Receipt, "request"⟩ := by
      simpa [extWellNamed, extXMLName, extTy, registeredName] using hw
    subst hn
    simp only [encodeExt, List.cons_append, List.nil_append]
    exact unmarshalLoop_start_reg_some s _ msg _ _ ts ExtensionType.receiptRequest
      (by decide) rfl
  | receiptReceived n id =>
    have hn : n = ⟨NSSpaceXEP0184Receipt, "received"⟩ := by
      simpa [extWellNamed, extXMLName, extTy, registeredName] using hw
    subst hn
    simp only [encodeExt, List.cons_append, List.nil_append]
    exact unmarshalLoop_start_reg_some s _ msg _ _ ts ExtensionType.receiptReceived
      (by decide) rfl
  | chatMarkerMarkable n =>
    have hn : n = ⟨NSSpaceXEP0333ChatMarkers, "markable"⟩ := by
      simpa [extWellNamed, extXMLName, extTy, registeredName] using hw
    subst hn
    simp only [encodeExt, List.cons_append, List.nil_append]
    exact unmarshalLoop_start_reg_some s _ msg _ _ ts ExtensionType.chatMarkerMarkable
      (by decide) rfl
  | chatMarkerReceived n id =>
    have hn : n = ⟨NSSpaceXEP0333ChatMarkers, "received"⟩ := by
      simpa [extWellNamed, extXMLName, extTy, registeredName] using hw
    subst hn
    simp only [encodeExt, List.cons_append, List.nil_append]
    exact unmarshalLoop_start_reg_some s _ msg _ _ ts ExtensionType.chatMarkerReceived
      (by decide) rfl
  | chatMarkerDisplayed n id =>
    have hn : n = ⟨NSSpaceXEP0333ChatMarkers, "displayed"⟩ := by
      simpa [extWellNamed, extXMLName, extTy, registeredName] using hw
    subst hn
    simp only [encodeExt, List.cons_append, List.nil_append]
    exact unmarshalLoop_start_reg_some s _ msg _ _ ts ExtensionType.chatMarkerDisplayed
      (by decide) rfl
  | chatMarkerAcknowledged n id =>
    have hn : n = ⟨NSSpaceXEP0333ChatMarkers, "acknowledged"⟩ := by
      simpa [extWellNamed, extXMLName, extTy, registeredName] using hw
    subst hn
    simp only [encodeExt, List.cons_append, List.nil_append]
    exact unmarshalLoop_start_reg_some s _ msg _ _ ts ExtensionType.chatMarkerAcknowledged
      (by decide) rfl

theorem unmarshalLoop_extsTokens (s : XmlName) (l : List MsgExtension) :
    ∀ (msg : Message) (ts : List Token), (∀ e ∈ l, extWellNamed e) →
      unmarshalLoop s msg (extsTokens l ++ ts)
        = unmarshalLoop s { msg with Extensions := msg.Extensions ++ l } ts := by
  induction l with
  | nil =>
    intro msg ts hw
    simp [extsTokens]
  | cons e l2 ih =>
    intro msg ts hw
    rw [extsTokens, List.append_assoc,
      unmarshalLoop_encodeExt s msg e _ (hw e (List.mem_cons_self e l2)),
      ih _ ts (fun e2 he2 => hw e2 (List.mem_cons_of_mem e he2))]
    simp [List.append_assoc]

theorem decodeAttrs_encodeAttrs (S : Message) (start : XmlName)
    (hId : S.Id ≠ "") (hFrom : S.From ≠ "") (hTo : S.To ≠ "") (hTyp : S.Typ ≠ "")
    (hLang : S.Lang ≠ "") :
    decodeAttrs { emptyMessage with XMLName := start } (encodeAttrs S)
      = { emptyMessage with
          XMLName := start
          Id := S.Id
          From := S.From
          To := S.To
          Typ := S.Typ
          Lang := S.Lang } := by
  simp only [encodeAttrs, if_neg hId, if_neg hFrom, if_neg hTo, if_neg hTyp, if_neg hLang]
  simp [decodeAttrs, applyAttr]

/-- C1 (amended): round-trip of the encoder followed by the decoder.  For a
stanza whose `XMLName` is the plain `message` name (the name the marshaller
always emits), whose out-of-band field `X` is `nil` (the decoder never
populates `X`), whose extensions carry the registered name of their type in
their `XMLName` field (the state the decoder produces), and whose optional
core strings are non-empty, decoding the marshalled token stream returns the
stanza exactly and consumes the whole stream. -/
theorem decode_encode_roundtrip (S : Message)
    (hn : S.XMLName = ⟨"", "message"⟩) (hx : S.X = none)
    (hext : ∀ e ∈ S.Extensions, extWellNamed e)
    (hId : S.Id ≠ "") (hFrom : S.From ≠ "") (hTo : S.To ≠ "") (hTyp : S.Typ ≠ "")
    (hLang : S.Lang ≠ "") (hSubject : S.Subject ≠ "") (hBody : S.Body ≠ "")
    (hThread : S.Thread ≠ "") :
    messageDecoder.decode (Message.XMPPFormat S) = some (S, []) := by
  obtain ⟨n, id, frm, dst, typ, lang, subj, body, thr, err, exts, x⟩ := S
  simp only at hn hx hext hId hFrom hTo hTyp hLang hSubject hBody hThread
  subst hn
  subst hx
  simp only [Message.XMPPFormat, messageDecoder.decode, Message.UnmarshalXML]
  rw [decodeAttrs_encodeAttrs _ _ hId hFrom hTo hTyp hLang]
  simp only [List.append_assoc]
  rw [unmarshalLoop_textTokens_subject _ _ _ _ hSubject,
    unmarshalLoop_textTokens_body _ _ _ _ hBody,
    unmarshalLoop_textTokens_thread _ _ _ _ hThread,
    unmarshalLoop_errTokens,
    unmarshalLoop_extsTokens _ _ _ _ hext]
  simp only [xTokens, List.nil_append]
  rw [unmarshalLoop_end_eq]
  simp [emptyMessage]

/-! Machinery for exact consumption (handled children) and for truncated
streams. -/

/-- No local name among `body`, `thread`, `subject`, `error` appears in any
pair of the registry, so the registry lookup on a core-named child always
misses. -/
theorem msgTypeRegistry_core_none (space localName : String)
    (h : localName = "body" ∨ localName = "thread" ∨ localName = "subject"
      ∨ localName = "error") :
    msgTypeRegistry space localName = none := by
  rcases h with h | h | h | h <;> subst h <;> simp [msgTypeRegistry]

/-- A direct child the token loop consumes atomically: character data, an
element whose `(namespace, localName)` is registered, or an element bearing
one of the four core local names. -/
def handledChild : Subtree → Bool
  | Subtree.text _ => true
  | Subtree.node n _ _ =>
    (msgTypeRegistry n.Space n.Local).isSome
      || (n.Local = "body" || n.Local = "thread" || n.Local = "subject" || n.Local = "error")

/-- All children of the forest are handled. -/
def handledForest : Forest → Bool
  | Forest.nil => true
  | Forest.cons t f => handledChild t && handledForest f

/-- No end tag in the list bears the given name. On a truncated stanza
stream this says the stream ends before any end tag carrying the stanza's
name is seen. -/
def noEndNamed (s : XmlName) : List Token → Bool
  | [] => true
  | Token.endElement n :: rest => !(n == s) && noEndNamed s rest
  | Token.startElement _ _ :: rest => noEndNamed s rest
  | Token.charData _ :: rest => noEndNamed s rest

theorem noEndNamed_skipToEnd (s : XmlName) :
    ∀ (ts : List Token) (d : Nat) (ts2 : List Token), skipToEnd ts d = some ts2 →
      noEndNamed s ts = true → noEndNamed s ts2 = true := by
  intro ts
  induction ts with
  | nil => intro d ts2 h; simp [skipToEnd] at h
  | cons t rest ih =>
    intro d ts2 h hne
    cases t with
    | startElement n a =>
      exact ih (d + 1) ts2 h (by simpa [noEndNamed] using hne)
    | endElement n =>
      simp only [noEndNamed, Bool.and_eq_true] at hne
      cases d with
      | zero =>
        simp [skipToEnd] at h
        rw [← h]
        exact hne.2
      | succ d2 => exact ih d2 ts2 h hne.2
    | charData c =>
      exact ih d ts2 h (by simpa [noEndNamed] using hne)

theorem noEndNamed_decodeElementString (s : XmlName) :
    ∀ (ts : List Token) (acc : String) (d : Nat) (v : String) (ts2 : List Token),
      decodeElementString acc d ts = some (v, ts2) →
      noEndNamed s ts = true → noEndNamed s ts2 = true := by
  intro ts
  induction ts with
  | nil => intro acc d v ts2 h; simp [decodeElementString] at h
  | cons t rest ih =>
    intro acc d v ts2 h hne
    cases t with
    | startElement n a =>
      exact ih acc (d + 1) v ts2 h (by simpa [noEndNamed] using hne)
    | endElement n =>
      simp only [noEndNamed, Bool.and_eq_true] at hne
      cases d with
      | zero =>
        simp [decodeElementString] at h
        rw [← h.2]
        exact hne.2
      | succ d2 => exact ih acc d2 v ts2 h hne.2
    | charData c =>
      exact ih (if d = 0 then acc ++ c else acc) d v ts2 h (by simpa [noEndNamed] using hne)

/-- If the stream holds no end tag bearing the stanza's name, the token loop
can only run to the end of the stream and fail. -/
theorem unmarshalLoop_noEnd_none :
    ∀ (N : Nat) (ts : List Token), ts.length ≤ N → ∀ (s : XmlName) (msg : Message),
      noEndNamed s ts = true → unmarshalLoop s msg ts = none := by
  intro N
  induction N with
  | zero =>
    intro ts hl s msg hne
    have : ts = [] := List.length_eq_zero.mp (Nat.le_zero.mp hl)
    subst this
    exact unmarshalLoop_nil s msg
  | succ N ih =>
    intro ts hl s msg hne
    cases ts with
    | nil => exact unmarshalLoop_nil s msg
    | cons t rest =>
      cases t with
      | charData c =>
        rw [unmarshalLoop_charData]
        exact ih rest (by simp at hl; omega) s msg (by simpa [noEndNamed] using hne)
      | endElement n =>
        simp only [noEndNamed, Bool.and_eq_true, Bool.not_eq_true', beq_eq_false_iff_ne,
          ne_eq] at hne
        rw [unmarshalLoop_end_ne s n msg rest hne.1]
        exact ih rest (by simp at hl; omega) s msg hne.2
      | startElement n attrs =>
        have hner : noEndNamed s rest = true := by simpa [noEndNamed] using hne
        cases hreg : msgTypeRegistry n.Space n.Local with
        | some ty =>
          cases hsk : skipToEnd rest 0 with
          | none => exact unmarshalLoop_start_reg_none s n msg attrs rest ty hreg hsk
          | some rest2 =>
            rw [unmarshalLoop_start_reg_some s n msg attrs rest rest2 ty hreg hsk]
            have hlen : rest2.length ≤ N := by
              have := skipToEnd_length rest 0 rest2 hsk
              simp at hl; omega
            exact ih rest2 hlen s _ (noEndNamed_skipToEnd s rest 0 rest2 hsk hner)
        | none =>
          by_cases hb : n.Local = "body"
          · cases hd : decodeElementString "" 0 rest with
            | none => exact unmarshalLoop_start_core_none s n msg attrs rest hreg (Or.inl hb) hd
            | some p =>
              obtain ⟨v, rest2⟩ := p
              rw [unmarshalLoop_start_body_some s n msg attrs rest rest2 v hreg hb hd]
              have hlen : rest2.length ≤ N := by
                have := decodeElementString_length rest "" 0 v rest2 hd
                simp at hl; omega
              exact ih rest2 hlen s _ (noEndNamed_decodeElementString s rest "" 0 v rest2 hd hner)
          · by_cases ht : n.Local = "thread"
            · cases hd : decodeElementString "" 0 rest with
              | none =>
                exact unmarshalLoop_start_core_none s n msg attrs rest hreg (Or.inr (Or.inl ht)) hd
              | some p =>
                obtain ⟨v, rest2⟩ := p
                rw [unmarshalLoop_start_thread_some s n msg attrs rest rest2 v hreg ht hd]
                have hlen : rest2.length ≤ N := by
                  have := decodeElementString_length rest "" 0 v rest2 hd
                  simp at hl; omega
                exact ih rest2 hlen s _ (noEndNamed_decodeElementString s rest "" 0 v rest2 hd hner)
            · by_cases hsj : n.Local = "subject"
              · cases hd : decodeElementString "" 0 rest with
                | none =>
                  exact unmarshalLoop_start_core_none s n msg attrs rest hreg
                    (Or.inr (Or.inr (Or.inl hsj))) hd
                | some p =>
                  obtain ⟨v, rest2⟩ := p
                  rw [unmarshalLoop_start_subject_some s n msg attrs rest rest2 v hreg hsj hd]
                  have hlen : rest2.length ≤ N := by
                    have := decodeElementString_length rest "" 0 v rest2 hd
                    simp at hl; omega
                  exact ih rest2 hlen s _ (noEndNamed_decodeElementString s rest "" 0 v rest2 hd hner)
              · by_cases herr : n.Local = "error"
                · cases hd : decodeElementString "" 0 rest with
                  | none =>
                    exact unmarshalLoop_start_core_none s n msg attrs rest hreg
                      (Or.inr (Or.inr (Or.inr herr))) hd
                  | some p =>
                    obtain ⟨v, rest2⟩ := p
                    rw [unmarshalLoop_start_error_some s n msg attrs rest rest2 v hreg herr hd]
                    have hlen : rest2.length ≤ N := by
                      have := decodeElementString_length rest "" 0 v rest2 hd
                      simp at hl; omega
                    exact ih rest2 hlen s _ (noEndNamed_decodeElementString s rest "" 0 v rest2 hd hner)
                · rw [unmarshalLoop_start_other s n msg attrs rest hreg hb ht hsj herr]
                  exact ih rest (by simp at hl; omega) s msg hner

theorem applyAttr_Extensions (msg : Message) (a : Attr) :
    (applyAttr msg a).Extensions = msg.Extensions := by
  simp only [applyAttr]
  split_ifs <;> rfl

theorem decodeAttrs_Extensions (attrs : List Attr) :
    ∀ (msg : Message), (decodeAttrs msg attrs).Extensions = msg.Extensions := by
  induction attrs with
  | nil => intro msg; rfl
  | cons a rest ih =>
    intro msg
    rw [decodeAttrs, List.foldl_cons, ← decodeAttrs, ih, applyAttr_Extensions]

theorem unmarshalLoop_handled_exact (f : Forest) :
    ∀ (s : XmlName) (msg : Message) (rest : List Token), handledForest f = true →
      ∃ m, unmarshalLoop s msg (Forest.tokens f ++ Token.endElement s :: rest)
        = some (m, rest) := by
  cases f with
  | nil =>
    intro s msg rest hh
    exact ⟨msg, by simpa [Forest.tokens] using unmarshalLoop_end_eq s msg rest⟩
  | cons t f2 =>
    intro s msg rest hh
    simp only [handledForest, Bool.and_eq_true] at hh
    obtain ⟨h1, h2⟩ := hh
    cases t with
    | text c =>
      simp only [Forest.tokens, Subtree.tokens, List.cons_append, List.singleton_append,
        List.append_assoc]
      rw [unmarshalLoop_charData]
      exact unmarshalLoop_handled_exact f2 s msg rest h2
    | node n a cs =>
      simp only [handledChild, Bool.or_eq_true, Option.isSome_iff_exists,
        decide_eq_true_eq] at h1
      simp only [Forest.tokens, Subtree.tokens, List.cons_append, List.append_assoc,
        List.singleton_append, List.nil_append]
      rcases h1 with ⟨ty, hreg⟩ | hcore
      · have hsk : skipToEnd
            (Forest.tokens cs ++ Token.endElement n
              :: (Forest.tokens f2 ++ Token.endElement s :: rest)) 0
            = some (Forest.tokens f2 ++ Token.endElement s :: rest) := by
          rw [skipToEnd_forest]
          rfl
        rw [unmarshalLoop_start_reg_some s n msg a _ _ ty hreg hsk]
        exact unmarshalLoop_handled_exact f2 s _ rest h2
      · have hreg := msgTypeRegistry_core_none n.Space n.Local (by tauto)
        have hd := decodeElementString_forest cs "" n
          (Forest.tokens f2 ++ Token.endElement s :: rest)
        rcases hcore with ((hb | ht) | hsj) | herr
        · rw [unmarshalLoop_start_body_some s n msg a _ _ _ hreg hb hd]
          exact unmarshalLoop_handled_exact f2 s _ rest h2
        · rw [unmarshalLoop_start_thread_some s n msg a _ _ _ hreg ht hd]
          exact unmarshalLoop_handled_exact f2 s _ rest h2
        · rw [unmarshalLoop_start_subject_some s n msg a _ _ _ hreg hsj hd]
          exact unmarshalLoop_handled_exact f2 s _ rest h2
        · rw [unmarshalLoop_start_error_some s n msg a _ _ _ hreg herr hd]
          exact unmarshalLoop_handled_exact f2 s _ rest h2

/-- A marshalled child element: name, attributes, arbitrary balanced
content, plus the type tag its name resolves to in the registry (the
resolution hypothesis is stated at each use site). -/
structure ExtChild where
  ty : ExtensionType
  name : XmlName
  attrs : List Attr
  content : Forest

/-- The token stream of one such child. -/
def ExtChild.tokens (c : ExtChild) : List Token :=
  Token.startElement c.name c.attrs :: (Forest.tokens c.content ++ [Token.endElement c.name])

/-- The token stream of a document-ordered sequence of such children. -/
def extChildrenTokens : List ExtChild → List Token
  | [] => []
  | c :: l => ExtChild.tokens c ++ extChildrenTokens l

theorem unmarshalLoop_extChildren (cs : List ExtChild) :
    ∀ (s : XmlName) (msg : Message) (rest : List Token),
      (∀ c ∈ cs, msgTypeRegistry c.name.Space c.name.Local = some c.ty) →
      unmarshalLoop s msg (extChildrenTokens cs ++ Token.endElement s :: rest)
        = some ({ msg with
            Extensions := msg.Extensions ++ cs.map (fun c => mkExt c.ty c.name c.attrs) }, rest) := by
  induction cs with
  | nil =>
    intro s msg rest hreg
    simp only [extChildrenTokens, List.nil_append, List.map_nil, List.append_nil]
    exact unmarshalLoop_end_eq s msg rest
  | cons c l ih =>
    intro s msg rest hreg
    simp only [extChildrenTokens, ExtChild.tokens, List.cons_append, List.append_assoc,
      List.singleton_append, List.nil_append]
    have hsk : skipToEnd
        (Forest.tokens c.content ++ Token.endElement c.name
          :: (extChildrenTokens l ++ Token.endElement s :: rest)) 0
        = some (extChildrenTokens l ++ Token.endElement s :: rest) := by
      rw [skipToEnd_forest]
      rfl
    rw [unmarshalLoop_start_reg_some s c.name msg c.attrs _ _ c.ty
      (hreg c (List.mem_cons_self c l)) hsk]
    rw [ih s _ rest (fun c2 hc2 => hreg c2 (List.mem_cons_of_mem c hc2))]
    simp [List.append_assoc]

/-! Claim C2: the exact-consumption contract, as amended, plus helper
lemmas for attribute-loop projections (claim C10). -/

/-- C2 (amended): `Message.UnmarshalXML` consumes exactly the token range of
the stanza subtree and processes each direct child as one complete subtree,
provided every direct child is handled: character data, a registered
extension element, or an element bearing one of the core local names
`body`, `thread`, `subject`, `error`.  (As stated over all well-formed
streams the claim is false: an unrecognized child's start tag is consumed
without its subtree, so its nested tokens are re-interpreted as further
top-level children — see the counterexample.) -/
theorem handled_children_exact_consumption (s : XmlName) (attrs : List Attr) (f : Forest)
    (rest : List Token) (hh : handledForest f = true) :
    ∃ m, Message.UnmarshalXML s attrs (Forest.tokens f ++ Token.endElement s :: rest)
      = some (m, rest) :=
  unmarshalLoop_handled_exact f s (decodeAttrs { emptyMessage with XMLName := s } attrs) rest hh

theorem handled_children_exact_consumption_witness :
    handledForest (Forest.cons
        (Subtree.node ⟨"", "body"⟩ [] (Forest.cons (Subtree.text "hi") Forest.nil))
        Forest.nil) = true
    ∧ ∃ m, Message.UnmarshalXML ⟨"", "message"⟩ []
        (Forest.tokens (Forest.cons
            (Subtree.node ⟨"", "body"⟩ [] (Forest.cons (Subtree.text "hi") Forest.nil))
            Forest.nil)
          ++ Token.endElement ⟨"", "message"⟩ :: [])
        = some (m, []) :=
  ⟨by decide, handled_children_exact_consumption ⟨"", "message"⟩ [] _ [] (by decide)⟩

/-- C2: counterexample to the claim as stated.  The child `unknown` is
neither registered nor core-named, so the loop consumes only its start tag;
the `body` element nested inside it is then decoded as if it were a direct
child of the stanza, and the decoded message has `Body = "evil"`. -/
theorem unhandled_child_reinterpreted :
    Message.UnmarshalXML ⟨"", "message"⟩ []
      [Token.startElement ⟨"", "unknown"⟩ [],
       Token.startElement ⟨"", "body"⟩ [], Token.charData "evil",
       Token.endElement ⟨"", "body"⟩,
       Token.endElement ⟨"", "unknown"⟩,
       Token.endElement ⟨"", "message"⟩]
      = some (⟨⟨"", "message"⟩, "", "", "", "", "", "", "evil", "", ⟨""⟩, [], none⟩, []) := by
  simp [Message.UnmarshalXML, decodeAttrs, unmarshalLoop, msgTypeRegistry,
    NSSpaceXEP0184Receipt, NSSpaceXEP0333ChatMarkers, decodeElementString, emptyMessage]

/-- C3: the code never decodes the out-of-band element.  A stanza whose only
child is the `jabber:x:oob` `x` element (carrying a `url` child) decodes
with `X = none` and nothing else set: the registry holds no `jabber:x:oob`
entry and the local-name switch has no `x` case, so the spec's requirement
that this child land in the dedicated `X` field is not implemented. -/
theorem oob_child_not_decoded :
    Message.UnmarshalXML ⟨"", "message"⟩ []
      [Token.startElement ⟨"jabber:x:oob", "x"⟩ [⟨⟨"", "xmlns"⟩, "jabber:x:oob"⟩],
       Token.startElement ⟨"jabber:x:oob", "url"⟩ [],
       Token.charData "http://example.com/file",
       Token.endElement ⟨"jabber:x:oob", "url"⟩,
       Token.endElement ⟨"jabber:x:oob", "x"⟩,
       Token.endElement ⟨"", "message"⟩]
      = some (⟨⟨"", "message"⟩, "", "", "", "", "", "", "", "", ⟨""⟩, [], none⟩, []) := by
  simp [Message.UnmarshalXML, decodeAttrs, unmarshalLoop, msgTypeRegistry,
    NSSpaceXEP0184Receipt, NSSpaceXEP0333ChatMarkers, decodeElementString, emptyMessage]

/-- C4 (amended): on a truncated stream — the stream ends before any end tag
bearing the stanza's name — the decode call fails and no stanza is
returned.  (As stated over all truncated streams the claim is false: an end
tag with the stanza's name nested in an unhandled child makes the loop
return early with a partial stanza — see the counterexample.) -/
theorem truncated_decode_fails (s : XmlName) (attrs : List Attr) (ts : List Token)
    (h : noEndNamed s ts = true) :
    Message.UnmarshalXML s attrs ts = none :=
  unmarshalLoop_noEnd_none ts.length ts le_rfl s
    (decodeAttrs { emptyMessage with XMLName := s } attrs) h

theorem truncated_decode_fails_witness :
    noEndNamed ⟨"", "message"⟩ [Token.startElement ⟨"", "body"⟩ [], Token.charData "hi"] = true
    ∧ Message.UnmarshalXML ⟨"", "message"⟩ []
        [Token.startElement ⟨"", "body"⟩ [], Token.charData "hi"] = none :=
  ⟨by decide, truncated_decode_fails ⟨"", "message"⟩ []
    [Token.startElement ⟨"", "body"⟩ [], Token.charData "hi"] (by decide)⟩

/-- C4: counterexample to the claim as stated.  The stream is truncated (the
outer stanza's end tag is missing: end of stream arrives first), yet the
decode call succeeds and returns a stanza, because the end tag of the nested
same-named `message` child — whose start tag fell through unconsumed — is
mistaken for the stanza's own end tag. -/
theorem truncated_stream_decode_succeeds :
    Message.UnmarshalXML ⟨"", "message"⟩ []
      [Token.startElement ⟨"", "message"⟩ [], Token.endElement ⟨"", "message"⟩]
      = some (⟨⟨"", "message"⟩, "", "", "", "", "", "", "", "", ⟨""⟩, [], none⟩, []) := by
  simp [Message.UnmarshalXML, decodeAttrs, unmarshalLoop, msgTypeRegistry,
    NSSpaceXEP0184Receipt, NSSpaceXEP0333ChatMarkers, emptyMessage]

/-- C5: forward compatibility and the registration invariant.  Any
well-formed stanza — its children are arbitrary balanced subtrees, so in
particular children with unregistered `(namespace, localName)` pairs are
allowed — decodes successfully (no decode error), and every instance in the
resulting `Extensions` carries a name that the registry maps to that
instance's own type: the decoder never materialises an instance for an
unregistered pair, so an unregistered child contributes nothing to
`Extensions`. -/
theorem unregistered_child_safe (s : XmlName) (attrs : List Attr) (cs : Forest)
    (rest : List Token) :
    ∃ m leftover,
      Message.UnmarshalXML s attrs (Forest.tokens cs ++ Token.endElement s :: rest)
        = some (m, leftover) ∧ ∀ e ∈ m.Extensions, extRegistered e := by
  have hE : EndsWell s (Forest.tokens cs ++ Token.endElement s :: rest) :=
    EndsWell.prepend_forest cs s _ (EndsWell.done rest)
  obtain ⟨p, hp⟩ := unmarshalLoop_total (Forest.tokens cs ++ Token.endElement s :: rest).length
    _ le_rfl s (decodeAttrs { emptyMessage with XMLName := s } attrs) hE
  obtain ⟨m, leftover⟩ := p
  refine ⟨m, leftover, hp, ?_⟩
  intro e he
  have hx := unmarshalLoop_extensions_registered
    (Forest.tokens cs ++ Token.endElement s :: rest).length _ le_rfl s _ m leftover hp e he
  rcases hx with hmem | hr
  · rw [decodeAttrs_Extensions] at hmem
    simp [emptyMessage] at hmem
  · exact hr

/-- C6: attribute extraction.  A stanza start tag with attributes `id="42"
type="chat" to="bob" from="alice" lang="en"` plus any unrecognized
attribute (one whose local name is none of the five known names) decodes
without error to a stanza with exactly those five core fields set; the
unrecognized attribute is silently ignored. -/
theorem attribute_extraction (extra : Attr)
    (h : extra.Name.Local ≠ "id" ∧ extra.Name.Local ≠ "type" ∧ extra.Name.Local ≠ "to"
      ∧ extra.Name.Local ≠ "from" ∧ extra.Name.Local ≠ "lang") :
    Message.UnmarshalXML ⟨"", "message"⟩
      [⟨⟨"", "id"⟩, "42"⟩, ⟨⟨"", "type"⟩, "chat"⟩, ⟨⟨"", "to"⟩, "bob"⟩,
        ⟨⟨"", "from"⟩, "alice"⟩, ⟨⟨"", "lang"⟩, "en"⟩, extra]
      [Token.endElement ⟨"", "message"⟩]
      = some (⟨⟨"", "message"⟩, "42", "alice", "bob", "chat", "en", "", "", "", ⟨""⟩, [],
          none⟩, []) := by
  obtain ⟨h1, h2, h3, h4, h5⟩ := h
  simp [Message.UnmarshalXML, decodeAttrs, applyAttr, emptyMessage, unmarshalLoop,
    h1, h2, h3, h4, h5]

theorem attribute_extraction_witness :
    ((⟨⟨"xmlns", "foo"⟩, "bar"⟩ : Attr).Name.Local ≠ "id"
        ∧ (⟨⟨"xmlns", "foo"⟩, "bar"⟩ : Attr).Name.Local ≠ "type"
        ∧ (⟨⟨"xmlns", "foo"⟩, "bar"⟩ : Attr).Name.Local ≠ "to"
        ∧ (⟨⟨"xmlns", "foo"⟩, "bar"⟩ : Attr).Name.Local ≠ "from"
        ∧ (⟨⟨"xmlns", "foo"⟩, "bar"⟩ : Attr).Name.Local ≠ "lang")
    ∧ Message.UnmarshalXML ⟨"", "message"⟩
        [⟨⟨"", "id"⟩, "42"⟩, ⟨⟨"", "type"⟩, "chat"⟩, ⟨⟨"", "to"⟩, "bob"⟩,
          ⟨⟨"", "from"⟩, "alice"⟩, ⟨⟨"", "lang"⟩, "en"⟩, ⟨⟨"xmlns", "foo"⟩, "bar"⟩]
        [Token.endElement ⟨"", "message"⟩]
        = some (⟨⟨"", "message"⟩, "42", "alice", "bob", "chat", "en", "", "", "", ⟨""⟩, [],
            none⟩, []) :=
  ⟨by decide, attribute_extraction ⟨⟨"xmlns", "foo"⟩, "bar"⟩ (by decide)⟩

/-- C7: last one wins for repeated core children.  A stanza with two `body`
children holding `"first"` then `"second"` decodes without error and the
resulting `Body` is `"second"`. -/
theorem body_last_one_wins :
    Message.UnmarshalXML ⟨"", "message"⟩ []
      [Token.startElement ⟨"", "body"⟩ [], Token.charData "first",
       Token.endElement ⟨"", "body"⟩,
       Token.startElement ⟨"", "body"⟩ [], Token.charData "second",
       Token.endElement ⟨"", "body"⟩,
       Token.endElement ⟨"", "message"⟩]
      = some (⟨⟨"", "message"⟩, "", "", "", "", "", "", "second", "", ⟨""⟩, [], none⟩, []) := by
  simp [Message.UnmarshalXML, decodeAttrs, unmarshalLoop, msgTypeRegistry,
    NSSpaceXEP0184Receipt, NSSpaceXEP0333ChatMarkers, decodeElementString, emptyMessage]

/-- C8: registry isolation.  The registry maps `(urn:xmpp:receipts,
received)` to `ReceiptRequest`'s sibling type `ReceiptReceived` and
`(urn:xmpp:chat-markers:0, received)` to `ChatMarkerReceived` — two shapes
under the same local name — and decoding a child tagged
`(urn:xmpp:receipts, received)` appends an instance of `ReceiptReceived`,
not of `ChatMarkerReceived`: the lookup keys on the namespace as well as the
local name. -/
theorem registry_isolation_received :
    msgTypeRegistry NSSpaceXEP0184Receipt "received" = some ExtensionType.receiptReceived
    ∧ msgTypeRegistry NSSpaceXEP0333ChatMarkers "received"
        = some ExtensionType.chatMarkerReceived
    ∧ Message.UnmarshalXML ⟨"", "message"⟩ []
        [Token.startElement ⟨NSSpaceXEP0184Receipt, "received"⟩ [⟨⟨"", "id"⟩, "abc"⟩],
         Token.endElement ⟨NSSpaceXEP0184Receipt, "received"⟩,
         Token.endElement ⟨"", "message"⟩]
        = some (⟨⟨"", "message"⟩, "", "", "", "", "", "", "", "", ⟨""⟩,
            [MsgExtension.receiptReceived ⟨NSSpaceXEP0184Receipt, "received"⟩ "abc"],
            none⟩, []) := by
  refine ⟨by decide, by decide, ?_⟩
  simp [Message.UnmarshalXML, decodeAttrs, unmarshalLoop, msgTypeRegistry,
    NSSpaceXEP0184Receipt, NSSpaceXEP0333ChatMarkers, skipToEnd, mkExt, lastAttrLocal,
    emptyMessage]

/-- C9: encounter order.  Decoding a stanza whose children are registered
extension elements in document order produces exactly the corresponding
instances in that list order (`Extensions` equals the mapped list, never a
permutation), with the whole subtree consumed. -/
theorem extensions_preserve_order (s : XmlName) (attrs : List Attr) (cs : List ExtChild)
    (rest : List Token)
    (hreg : ∀ c ∈ cs, msgTypeRegistry c.name.Space c.name.Local = some c.ty) :
    ∃ m, Message.UnmarshalXML s attrs (extChildrenTokens cs ++ Token.endElement s :: rest)
      = some (m, rest) ∧ m.Extensions = cs.map (fun c => mkExt c.ty c.name c.attrs) := by
  refine ⟨_, unmarshalLoop_extChildren cs s _ rest hreg, ?_⟩
  simp [decodeAttrs_Extensions, emptyMessage]

theorem extensions_preserve_order_witness :
    (∀ c ∈ ([⟨ExtensionType.chatMarkerMarkable, ⟨NSSpaceXEP0333ChatMarkers, "markable"⟩, [],
          Forest.nil⟩,
        ⟨ExtensionType.receiptReceived, ⟨NSSpaceXEP0184Receipt, "received"⟩,
          [⟨⟨"", "id"⟩, "m1"⟩], Forest.nil⟩,
        ⟨ExtensionType.chatMarkerDisplayed, ⟨NSSpaceXEP0333ChatMarkers, "displayed"⟩,
          [⟨⟨"", "id"⟩, "m2"⟩], Forest.nil⟩] : List ExtChild),
      msgTypeRegistry c.name.Space c.name.Local = some c.ty)
    ∧ ∃ m, Message.UnmarshalXML ⟨"", "message"⟩ []
        (extChildrenTokens
            ([⟨ExtensionType.chatMarkerMarkable, ⟨NSSpaceXEP0333ChatMarkers, "markable"⟩, [],
              Forest.nil⟩,
            ⟨ExtensionType.receiptReceived, ⟨NSSpaceXEP0184Receipt, "received"⟩,
              [⟨⟨"", "id"⟩, "m1"⟩], Forest.nil⟩,
            ⟨ExtensionType.chatMarkerDisplayed, ⟨NSSpaceXEP0333ChatMarkers, "displayed"⟩,
              [⟨⟨"", "id"⟩, "m2"⟩], Forest.nil⟩] : List ExtChild)
          ++ Token.endElement ⟨"", "message"⟩ :: [])
        = some (m, [])
        ∧ m.Extensions
          = List.map (fun c => mkExt c.ty c.name c.attrs)
            ([⟨ExtensionType.chatMarkerMarkable, ⟨NSSpaceXEP0333ChatMarkers, "markable"⟩, [],
              Forest.nil⟩,
            ⟨ExtensionType.receiptReceived, ⟨NSSpaceXEP0184Receipt, "received"⟩,
              [⟨⟨"", "id"⟩, "m1"⟩], Forest.nil⟩,
            ⟨ExtensionType.chatMarkerDisplayed, ⟨NSSpaceXEP0333ChatMarkers, "displayed"⟩,
              [⟨⟨"", "id"⟩, "m2"⟩], Forest.nil⟩] : List ExtChild) :=
  ⟨by decide, extensions_preserve_order ⟨"", "message"⟩ [] _ [] (by decide)⟩

theorem applyAttr_Id (msg : Message) (a : Attr) :
    (applyAttr msg a).Id = if a.Name.Local = "id" then a.Value else msg.Id := by
  simp only [applyAttr]
  split_ifs <;> rfl

theorem applyAttr_Typ (msg : Message) (a : Attr) :
    (applyAttr msg a).Typ = if a.Name.Local = "type" then a.Value else msg.Typ := by
  simp only [applyAttr]
  split_ifs <;> rfl

theorem applyAttr_To (msg : Message) (a : Attr) :
    (applyAttr msg a).To = if a.Name.Local = "to" then a.Value else msg.To := by
  simp only [applyAttr]
  split_ifs <;> rfl

theorem applyAttr_From (msg : Message) (a : Attr) :
    (applyAttr msg a).From = if a.Name.Local = "from" then a.Value else msg.From := by
  simp only [applyAttr]
  split_ifs <;> rfl

theorem applyAttr_Lang (msg : Message) (a : Attr) :
    (applyAttr msg a).Lang = if a.Name.Local = "lang" then a.Value else msg.Lang := by
  simp only [applyAttr]
  split_ifs <;> rfl

/-- The last attribute in list order whose local name matches, with a
default for when none matches; the attribute's namespace is never examined. -/
def lastAttrLocalD (localName : String) (attrs : List Attr) (dflt : String) : String :=
  attrs.foldl (fun acc a => if a.Name.Local = localName then a.Value else acc) dflt

/-- C10: attribute matching compares only the attribute's local name.  Each
of the five core fields produced by the attribute loop equals the value of
the last attribute in list order whose local name matches (regardless of the
attribute's namespace, which `lastAttrLocalD` never examines), keeping its
previous value when no attribute matches. -/
theorem attr_matching_local_last_wins (msg : Message) (attrs : List Attr) :
    (decodeAttrs msg attrs).Id = lastAttrLocalD "id" attrs msg.Id
      ∧ (decodeAttrs msg attrs).Typ = lastAttrLocalD "type" attrs msg.Typ
      ∧ (decodeAttrs msg attrs).To = lastAttrLocalD "to" attrs msg.To
      ∧ (decodeAttrs msg attrs).From = lastAttrLocalD "from" attrs msg.From
      ∧ (decodeAttrs msg attrs).Lang = lastAttrLocalD "lang" attrs msg.Lang := by
  induction attrs generalizing msg with
  | nil => exact ⟨rfl, rfl, rfl, rfl, rfl⟩
  | cons a rest ih =>
    have h := ih (applyAttr msg a)
    simp only [decodeAttrs, List.foldl_cons, lastAttrLocalD] at h ⊢
    refine ⟨?_, ?_, ?_, ?_, ?_⟩
    · rw [h.1, applyAttr_Id]
    · rw [h.2.1, applyAttr_Typ]
    · rw [h.2.2.1, applyAttr_To]
    · rw [h.2.2.2.1, applyAttr_From]
    · rw [h.2.2.2.2, applyAttr_Lang]

/-- C1: counterexample to the round-trip claim as stated.  A stanza with all
optional strings non-empty and a non-nil out-of-band payload `X` (every
extension shape in `Extensions` is trivially registered: the list is empty)
encodes, but decoding the encoder's output returns a different stanza: the
`x` element is emitted by the marshaller yet ignored by the decoder, so the
decoded stanza has `X = none`. -/
theorem decode_encode_drops_oob :
    messageDecoder.decode (Message.XMPPFormat
        ⟨⟨"", "message"⟩, "1", "alice", "bob", "chat", "en", "s", "b", "t", ⟨""⟩, [],
          some ⟨⟨"jabber:x:oob", "x"⟩, "http://e", ""⟩⟩)
      = some (⟨⟨"", "message"⟩, "1", "alice", "bob", "chat", "en", "s", "b", "t", ⟨""⟩, [],
          none⟩, [])
    ∧ (⟨⟨"", "message"⟩, "1", "alice", "bob", "chat", "en", "s", "b", "t", ⟨""⟩, [],
        some ⟨⟨"jabber:x:oob", "x"⟩, "http://e", ""⟩⟩ : Message)
      ≠ ⟨⟨"", "message"⟩, "1", "alice", "bob", "chat", "en", "s", "b", "t", ⟨""⟩, [], none⟩ := by
  constructor
  · simp [messageDecoder.decode, Message.XMPPFormat, Message.UnmarshalXML, encodeAttrs,
      textTokens, errTokens, extsTokens, xTokens, decodeAttrs, applyAttr, emptyMessage,
      unmarshalLoop, msgTypeRegistry, NSSpaceXEP0184Receipt, NSSpaceXEP0333ChatMarkers,
      decodeElementString, skipToEnd]
  · decide

theorem decode_encode_roundtrip_witness :
    messageDecoder.decode (Message.XMPPFormat
        ⟨⟨"", "message"⟩, "1", "alice", "bob", "chat", "en", "s", "b", "t", ⟨"oops"⟩,
          [MsgExtension.chatMarkerMarkable ⟨NSSpaceXEP0333ChatMarkers, "markable"⟩], none⟩)
      = some (⟨⟨"", "message"⟩, "1", "alice", "bob", "chat", "en", "s", "b", "t", ⟨"oops"⟩,
          [MsgExtension.chatMarkerMarkable ⟨NSSpaceXEP0333ChatMarkers, "markable"⟩], none⟩,
          []) :=
  decode_encode_roundtrip _ rfl rfl (by decide) (by decide) (by decide) (by decide)
    (by decide) (by decide) (by decide) (by decide) (by decide)
